import Mathlib

/-!
Verification development for the menu-tree CRUD backend (NestJS + TypeORM).

The embedding models:
* `utils/slug.util.ts` (`isEmptyOrHyphens`, `unicodeSlug`),
* the first `MenusService` variant (`ensureUniqueSlug`, `create`, `update`,
  `remove`, `findTreeById`, `findDescendants`) over an explicit list of
  stored rows.

Unicode-dependent library primitives that cannot be tabulated here are
parameters of the model:
* `nfkc : String → String` stands for `String.prototype.normalize(NFKC)`;
* `ln : Char → Bool` stands for the regex class `\p{L}\p{N}` (Unicode
  letters and numbers).
The JavaScript whitespace class (`\s` and `String.prototype.trim`) is
tabulated concretely in `jsWhitespace`.

TypeORM semantics that the service relies on are modelled explicitly:
`repo.findOne({ where: { id } })` loads no relations, so the `children`
property of the returned entity is `undefined`; `repo.findDescendants(m)`
returns the descendant closure of `m` including `m` itself;
`repo.findTrees()` returns the list of root nodes (each carrying its nested
children, which is immaterial to the claims below).
-/

namespace MenuTree

/-- The JavaScript whitespace class: the code points matched by `\s` and
removed by `String.prototype.trim` (WhiteSpace plus LineTerminator). -/
def jsWhitespace (c : Char) : Bool :=
  c == ' ' || c == '\t' || c == '\n' || c.val == 11 || c.val == 12 || c == '\r' ||
  c.val == 0xA0 || c.val == 0x1680 || (0x2000 ≤ c.val && c.val ≤ 0x200A) ||
  c.val == 0x2028 || c.val == 0x2029 || c.val == 0x202F || c.val == 0x205F ||
  c.val == 0x3000 || c.val == 0xFEFF

/-- Drop leading JavaScript whitespace. -/
def dropLeadWs (l : List Char) : List Char :=
  l.dropWhile jsWhitespace

/-- Model of `String.prototype.trim` on the character list: drop whitespace at both ends. -/
def trimChars (l : List Char) : List Char :=
  ((dropLeadWs l).reverse.dropWhile jsWhitespace).reverse

/-- Model of `String.prototype.trim`. -/
def trimJS (s : String) : String :=
  ⟨trimChars s.data⟩

/-- Model of `isEmptyOrHyphens` from `utils/slug.util.ts`:
`if (!s) return true` and then emptiness of the hyphen-stripped trim —
true iff the string is empty or its non-hyphen characters are all whitespace. -/
def isEmptyOrHyphens (s : String) : Bool :=
  s == ("") || trimJS ⟨s.data.filter (fun c => c != '-')⟩ == ("")

/-- Model of `isEmptyOrHyphens` applied to a possibly-undefined argument
(`!s` is also true for `undefined`/`null`). -/
def isEmptyOrHyphensOpt : Option String → Bool
  | none => true
  | some s => isEmptyOrHyphens s

/-- Worker for the whitespace-run replacement: the flag records whether we are inside a
whitespace run whose first character already produced the hyphen. -/
def hyphenateAux : Bool → List Char → List Char
  | _, [] => []
  | inRun, c :: cs =>
    if jsWhitespace c then
      if inRun then hyphenateAux true cs else '-' :: hyphenateAux true cs
    else c :: hyphenateAux false cs

/-- Model of `replace(/\s+/g, hyphen)`: every whitespace run becomes a single hyphen. -/
def hyphenateWs (l : List Char) : List Char :=
  hyphenateAux false l

/-- The character class kept by the filtering replacement (letters, digits,
hyphen, underscore, period, tilde). -/
def keepChar (ln : Char → Bool) (c : Char) : Bool :=
  ln c || c == '-' || c == '_' || c == '.' || c == '~'

/-- Worker for the hyphen-run replacement: the flag records whether we
are inside a hyphen run whose first hyphen was already emitted. -/
def collapseHyphAux : Bool → List Char → List Char
  | _, [] => []
  | inRun, c :: cs =>
    if c == '-' then
      if inRun then collapseHyphAux true cs else '-' :: collapseHyphAux true cs
    else c :: collapseHyphAux false cs

/-- Model of the hyphen-run replacement: collapse hyphen runs to a single hyphen. -/
def collapseHyph (l : List Char) : List Char :=
  collapseHyphAux false l

/-- Drop leading hyphens (`/^-+/`). -/
def dropLeadHyph (l : List Char) : List Char :=
  l.dropWhile (fun c => c == '-')

/-- Drop trailing hyphens (the `-+$` alternative of the edge regex). -/
def dropTrailHyph (l : List Char) : List Char :=
  (dropLeadHyph l.reverse).reverse

/-- Model of the edge-hyphen replacement: strip hyphens at both ends. -/
def stripEdgeHyph (l : List Char) : List Char :=
  dropLeadHyph (dropTrailHyph l)

/-- Model of `unicodeSlug` from `utils/slug.util.ts`:
empty input short-circuits; otherwise NFKC-normalize and trim, turn
whitespace runs into hyphens, keep only `\p{L}\p{N}-_.~`, collapse hyphen
runs, strip edge hyphens. -/
def unicodeSlug (nfkc : String → String) (ln : Char → Bool) (input : String) : String :=
  if input = ("") then ("")
  else
    let l0 := trimChars (nfkc input).data
    let l1 := hyphenateWs l0
    let l2 := l1.filter (keepChar ln)
    ⟨stripEdgeHyph (collapseHyph l2)⟩

/-- Modelled from the spec: the normalizer pipeline exactly as the spec words
it — Unicode-normalize (compatibility composition) and trim; collapse any
whitespace run to a single hyphen; strip every character that is not a
Unicode letter, Unicode digit, hyphen, underscore, period, or tilde;
collapse repeated hyphens to one; strip leading and trailing hyphens — with no
special case for the empty string. -/
def unicodeSlugSpecSteps (nfkc : String → String) (ln : Char → Bool) (input : String) : String :=
  ⟨stripEdgeHyph (collapseHyph ((hyphenateWs (trimChars (nfkc input).data)).filter (keepChar ln)))⟩

/-- The candidate slug `` `${base}-${i}` `` probed by `ensureUniqueSlug`. -/
def slugCand (base : String) (i : Nat) : String :=
  base ++ ("-") ++ Nat.repr i

/-- The `while` loop of `ensureUniqueSlug`, with explicit fuel: starting at
index `i`, return the first candidate not present in `stored`. -/
def probeSlug (stored : List String) (base : String) : Nat → Nat → String
  | 0, i => slugCand base i
  | fuel + 1, i =>
    if stored.contains (slugCand base i) then probeSlug stored base fuel (i + 1)
    else slugCand base i

/-- Model of `MenusService.ensureUniqueSlug`: return `base` if unused, otherwise probe
`base-2`, `base-3`, … until an unused candidate is found. `stored` is the set
of slugs present in storage. The fuel `stored.length + 1` is enough for the
loop to reach a free candidate (proved below). -/
def ensureUniqueSlug (stored : List String) (base : String) : String :=
  if stored.contains base then probeSlug stored base (stored.length + 1) 2
  else base

/-- The two error species thrown by the service:
`NotFoundException` (HTTP 404) and `BadRequestException` (HTTP 400, used for
all conflicts). -/
inductive ApiError where
  | notFound (msg : String) : ApiError
  | badRequest (msg : String) : ApiError
deriving DecidableEq

/-- A stored `Menu` row. `uid`, `createdAt`, `updatedAt` and the derived
`depth` column play no role in any claim and are omitted; the tree relation
is carried by `parentId` (the ORM maintains its materialized path from it). -/
structure Menu where
  id : Nat
  name : String
  slug : String
  order : Int
  isActive : Bool
  parentId : Option Nat
deriving DecidableEq

/-- Model of `CreateMenuDto`: `name` required, the rest optional. -/
structure CreateMenuDto where
  name : String
  slug : Option String := none
  order : Option Int := none
  isActive : Option Bool := none
  parentId : Option Nat := none
deriving DecidableEq

/-- Model of `UpdateMenuDto`: every field optional. For `slug`, `order`, `isActive` and
`parentId` the outer `Option` marks field absence (`undefined`) and the inner
one an explicit `null`; `name` is only used under a `!= null` test, which
conflates the two. -/
structure UpdateMenuDto where
  name : Option String := none
  slug : Option (Option String) := none
  order : Option (Option Int) := none
  isActive : Option (Option Bool) := none
  parentId : Option (Option Nat) := none
deriving DecidableEq

/-- JavaScript truthiness of `dto.parentId` in `create`
(`if (dto.parentId)`): `undefined`, `null` and `0` are all falsy. -/
def optTruthyNat : Option Nat → Option Nat
  | some p => if p == 0 then none else some p
  | none => none

/-- The orders of the sibling group keyed by `g`
(`menu.parentId = :pid` resp. `menu.parentId IS NULL`). -/
def siblingOrders (st : List Menu) (g : Option Nat) : List Int :=
  (st.filter (fun m => m.parentId == g)).map (fun m => m.order)

/-- Parent resolution in `create`: `if (dto.parentId)` (truthiness), then
`repo.findOne` and 404 when the parent row is absent. -/
def resolveParent (st : List Menu) (pid? : Option Nat) : Except ApiError (Option Menu) :=
  match optTruthyNat pid? with
  | some pid =>
    match st.find? (fun m => m.id == pid) with
    | none => .error (.notFound ("Parent not found"))
    | some p => .ok (some p)
  | none => .ok none

/-- The sibling-group key of the max-order query: `if (parent?.id)` use
`menu.parentId = :pid`, else `menu.parentId IS NULL`. -/
def parentKey : Option Menu → Option Nat
  | some p => if p.id == 0 then none else some p.id
  | none => none

/-- Model of `COALESCE(MAX(order), 0) + 1` over the sibling group. -/
def nextOrderOf (st : List Menu) (key : Option Nat) : Int :=
  (siblingOrders st key).max?.getD 0 + 1

/-- Model of `MenusService.create` (first variant): derive the base slug from the
trimmed `slug` field unless it is empty-or-hyphens, else from `name`;
fall back to `menu-<random>` (the oracle `rnd` stands for
`randomUUID().slice(0, 8)`); make it unique; resolve the parent (404 if a
truthy `parentId` does not exist); compute the order as
`COALESCE(MAX("order"), 0) + 1` over the sibling group when not supplied;
default `isActive` to `true`; save the new row (`newId` is the
storage-assigned key). -/
def create (nfkc : String → String) (ln : Char → Bool) (rnd : String)
    (st : List Menu) (newId : Nat) (dto : CreateMenuDto) :
    Except ApiError (List Menu × Menu) :=
  let raw := dto.slug.map trimJS
  let sourceForSlug := if isEmptyOrHyphensOpt raw = false then raw.getD ("") else dto.name
  let baseSlug0 := unicodeSlug nfkc ln sourceForSlug
  let baseSlug := if baseSlug0 = ("") then ("menu-") ++ rnd else baseSlug0
  let slug := ensureUniqueSlug (st.map (fun m => m.slug)) baseSlug
  match resolveParent st dto.parentId with
  | .error e => .error e
  | .ok parent =>
    let order : Int :=
      match dto.order with
      | some o => o
      | none => nextOrderOf st (parentKey parent)
    let entity : Menu :=
      { id := newId
        name := trimJS dto.name
        slug := slug
        order := order
        isActive := dto.isActive.getD true
        parentId := parent.map (fun p => p.id) }
    .ok (st ++ [entity], entity)

/-- The ids of the rows whose `parentId` is `i`. -/
def childIdsOf (st : List Menu) (i : Nat) : List Nat :=
  (st.filter (fun m => m.parentId == some i)).map (fun m => m.id)

/-- Breadth-first closure used to model `repo.findDescendants`. -/
def descendantsAux (st : List Menu) : Nat → List Nat → List Nat → List Nat
  | 0, acc, _ => acc
  | fuel + 1, acc, frontier =>
    let next := (frontier.flatMap (childIdsOf st)).filter (fun j => !(acc.contains j))
    match next with
    | [] => acc
    | _ => descendantsAux st fuel (acc ++ next) next

/-- Model of `repo.findDescendants(m)` for the row with id `i`: the descendant closure
of `i` over the `parentId` relation, including `i` itself (TypeORM includes
the node in its own descendant set). -/
def findDescendants (st : List Menu) (i : Nat) : List Nat :=
  descendantsAux st st.length [i] [i]

/-- Step 1 of `MenusService.update`: `if (dto.name != null)` trim it, record
whether the trimmed value is non-empty and differs from the current name, and
assign the trimmed value unconditionally. Returns the updated row and the
`nameChanged` flag. -/
def applyNameStep (dto : UpdateMenuDto) (m : Menu) : Menu × Bool :=
  match dto.name with
  | some n =>
    let t := trimJS n
    ({ m with name := t }, !(t == ("")) && !(t == m.name))
  | none => (m, false)

/-- Helper computing `unicodeSlug` with the `menu-<random>` fallback, as computed in both slug
branches of `update` (and in `create`). -/
def reslugBase (nfkc : String → String) (ln : Char → Bool) (rnd : String)
    (source : String) : String :=
  let b := unicodeSlug nfkc ln source
  if b = ("") then ("menu-") ++ rnd else b

/-- Step 2 of `MenusService.update`: when the caller supplies a slug field
(possibly `null`), derive the base from it or from the (possibly
just-updated) name and re-resolve uniqueness only if the base differs from
the current slug; when no slug field is supplied but the name changed,
auto-reslug from the new name under the same rule. -/
def applySlugStep (nfkc : String → String) (ln : Char → Bool) (rnd : String)
    (st : List Menu) (dto : UpdateMenuDto) (nameChanged : Bool) (m : Menu) : Menu :=
  match dto.slug with
  | some sOpt =>
    let raw := (sOpt.map trimJS).getD ("")
    let source :=
      if isEmptyOrHyphens raw = false then raw
      else match dto.name with
        | some n => trimJS n
        | none => m.name
    let base := reslugBase nfkc ln rnd source
    if base ≠ m.slug then { m with slug := ensureUniqueSlug (st.map (fun x => x.slug)) base }
    else m
  | none =>
    if nameChanged then
      let base := reslugBase nfkc ln rnd m.name
      if base ≠ m.slug then { m with slug := ensureUniqueSlug (st.map (fun x => x.slug)) base }
      else m
    else m

/-- Step 3 of `MenusService.update`: `parentId` handling — detach on `null`;
otherwise reject self-parenting, reject a missing target with 404, reject a
target inside `findDescendants` of the node with 400, else reassign. -/
def applyParentStep (st : List Menu) (id : Nat) (dto : UpdateMenuDto) (m : Menu) :
    Except ApiError Menu :=
  match dto.parentId with
  | none => .ok m
  | some none => .ok { m with parentId := none }
  | some (some p) =>
    if p = id then .error (.badRequest ("Cannot set parent to itself"))
    else
      match st.find? (fun x => x.id == p) with
      | none => .error (.notFound ("New parent not found"))
      | some np =>
        if (findDescendants st id).contains np.id then
          .error (.badRequest ("Cannot move a node into its descendant"))
        else .ok { m with parentId := some np.id }

/-- Step 4 of `MenusService.update`: `order` and `isActive` are applied when
supplied and not `null`. -/
def applyOrderActiveStep (dto : UpdateMenuDto) (m : Menu) : Menu :=
  let m1 :=
    match dto.order with
    | some (some o) => { m with order := o }
    | _ => m
  match dto.isActive with
  | some (some b) => { m1 with isActive := b }
  | _ => m1

/-- Model of `repo.save` of a mutated entity: replace the row with key `id`. -/
def saveRow (st : List Menu) (id : Nat) (m : Menu) : List Menu :=
  st.map (fun x => if x.id == id then m else x)

/-- Model of `MenusService.update` (first variant): 404 when `id` is absent, then the
name, slug, parent and order/isActive steps in program order, then save. -/
def update (nfkc : String → String) (ln : Char → Bool) (rnd : String)
    (st : List Menu) (id : Nat) (dto : UpdateMenuDto) :
    Except ApiError (List Menu × Menu) :=
  match st.find? (fun x => x.id == id) with
  | none => .error (.notFound ("Menu not found"))
  | some menu0 =>
    let s1 := applyNameStep dto menu0
    let menu2 := applySlugStep nfkc ln rnd st dto s1.2 s1.1
    match applyParentStep st id dto menu2 with
    | .error e => .error e
    | .ok menu3 =>
      let menu4 := applyOrderActiveStep dto menu3
      .ok (saveRow st id menu4, menu4)

/-- The `children` property of the entity returned by
`this.repo.findOne({ where: { id } })`: no relation is requested (and tree
relations are not eager), so it is `undefined` — modelled as `none`. -/
def childrenLoadedByFindOne : Option (List Menu) :=
  none

/-- Model of `MenusService.remove`: 404 when `id` is absent; the guard
`if (menu.children?.length) throw BadRequest(..)`
reads the `children` property of the entity loaded by `findOne`
(see `childrenLoadedByFindOne`); then delete the row. The database-side
foreign-key constraint on `parentId` is not modelled. -/
def remove (st : List Menu) (id : Nat) : Except ApiError (List Menu) :=
  match st.find? (fun m => m.id == id) with
  | none => .error (.notFound ("Menu not found"))
  | some _ =>
    match childrenLoadedByFindOne with
    | some (_ :: _) => .error (.badRequest ("Remove/move children first"))
    | _ => .ok (st.filter (fun m => m.id != id))

/-- Model of `repo.findTrees()`: the root rows (each root carries its nested children
in the ORM; only the ids at the top level matter for the claims). -/
def findTrees (st : List Menu) : List Menu :=
  st.filter (fun m => m.parentId == none)

/-- Model of `MenusService.findTreeById`: fetch all trees and look the id up with
`trees.find((t) => t.id === id)` — i.e. only among the root nodes — and 404
otherwise. -/
def findTreeById (st : List Menu) (id : Nat) : Except ApiError Menu :=
  match (findTrees st).find? (fun m => m.id == id) with
  | none => .error (.notFound ("Menu not found"))
  | some r => .ok r

/-- Adjacent characters are not both hyphens (the invariant established by
`collapseHyph`). -/
def HyphApart (a b : Char) : Prop :=
  ¬(a = '-' ∧ b = '-')

/-- A root row used in concrete instances. -/
def menuA : Menu :=
  { id := 1, name := ("A"), slug := ("a"), order := 1, isActive := true, parentId := none }

/-- A child of `menuA`. -/
def menuB : Menu :=
  { id := 2, name := ("B"), slug := ("b"), order := 1, isActive := true, parentId := some 1 }

/-- A child of `menuB`. -/
def menuC : Menu :=
  { id := 3, name := ("C"), slug := ("c"), order := 1, isActive := true, parentId := some 2 }

/-- The chain `A → B → C` from the reparent example of the spec. -/
def storeABC : List Menu :=
  [menuA, menuB, menuC]

/-- A two-row store: root `1` with child `2`. -/
def storeAB : List Menu :=
  [menuA, menuB]

/-- An update request that moves `C` under `A`. -/
def dtoCtoA : UpdateMenuDto :=
  { parentId := some (some 1) }

/-- An update request whose name trims to the empty string. -/
def dtoBlankName : UpdateMenuDto :=
  { name := some ("   ") }

/-- A root row with order `5`, for the order-assignment instance. -/
def rootOrderFive : Menu :=
  { id := 1, name := ("A"), slug := ("a"), order := 5, isActive := true, parentId := none }

/-- A create request carrying only a name. -/
def dtoCreateB : CreateMenuDto :=
  { name := ("B") }

/-- The row `create` persists for `dtoCreateB` next to `rootOrderFive`. -/
def createdB : Menu :=
  { id := 2, name := ("B"), slug := ("B"), order := 6, isActive := true, parentId := none }

/-- The row `create` persists for `dtoCreateB` on an empty store. -/
def createdBFirst : Menu :=
  { id := 1, name := ("B"), slug := ("B"), order := 1, isActive := true, parentId := none }

/-- A small concrete stand-in for the `\p{L}\p{N}` class, used to instantiate
the normalizer theorems on the string `"  Hello   World!! "`. -/
def lnDemo (c : Char) : Bool :=
  c == ('H') || c == ('e') || c == ('l') || c == ('o') ||
  c == ('W') || c == ('r') || c == ('d')

/-- The restriction of real Unicode NFKC to the strings of the Hangul-jamo
instance: the conjoining jamo pair U+1100 U+1161 composes to the precomposed
syllable U+AC00 (Unicode canonical composition); every other string occurring
in that instance (in particular the input, where the two jamo are separated
by an exclamation mark, and the one-syllable output) is already
NFKC-normalized and is fixed. -/
def nfkcJamo (s : String) : String :=
  if s = ("\u1100\u1161") then ("\uAC00") else s

/-- The restriction of the `\p{L}` class to the characters of the Hangul-jamo
instance: U+1100, U+1161 and U+AC00 are Unicode letters; the separator `!`
is not. -/
def lnJamo (c : Char) : Bool :=
  c == ('\u1100') || c == ('\u1161') || c == ('\uAC00')

end MenuTree

namespace MenuTree

/-! ### Helper lemmas about the service steps -/

theorem optTruthyNat_some {x : Option Nat} {pid : Nat} (h : optTruthyNat x = some pid) :
    pid ≠ 0 := by
  cases x with
  | none => simp [optTruthyNat] at h
  | some q =>
    simp only [optTruthyNat] at h
    by_cases hq : q = 0
    · rw [if_pos (by simpa using hq)] at h
      exact Option.noConfusion h
    · rw [if_neg (by simpa using hq)] at h
      simp only [Option.some.injEq] at h
      subst h
      exact hq

theorem resolveParent_ok_some {st : List Menu} {pid? : Option Nat} {p : Menu}
    (h : resolveParent st pid? = .ok (some p)) : p.id ≠ 0 := by
  unfold resolveParent at h
  cases ho : optTruthyNat pid? with
  | none =>
    simp only [ho, Except.ok.injEq] at h
    exact Option.noConfusion h
  | some pid =>
    simp only [ho] at h
    cases hf : st.find? (fun m => m.id == pid) with
    | none =>
      simp only [hf] at h
      exact Except.noConfusion h
    | some q =>
      simp only [hf, Except.ok.injEq, Option.some.injEq] at h
      have hq : q.id = pid := by simpa using List.find?_some hf
      rw [← h, hq]
      exact optTruthyNat_some ho

theorem applyOrderActive_parentId (dto : UpdateMenuDto) (m : Menu) :
    (applyOrderActiveStep dto m).parentId = m.parentId := by
  rcases hA : dto.isActive with _ | (_ | b) <;> rcases hO : dto.order with _ | (_ | o) <;>
    simp [applyOrderActiveStep, hA, hO]

theorem applyOrderActive_name (dto : UpdateMenuDto) (m : Menu) :
    (applyOrderActiveStep dto m).name = m.name := by
  rcases hA : dto.isActive with _ | (_ | b) <;> rcases hO : dto.order with _ | (_ | o) <;>
    simp [applyOrderActiveStep, hA, hO]

theorem applySlugStep_name (nfkc : String → String) (ln : Char → Bool) (rnd : String)
    (st : List Menu) (dto : UpdateMenuDto) (f : Bool) (m : Menu) :
    (applySlugStep nfkc ln rnd st dto f m).name = m.name := by
  rcases hS : dto.slug with _ | sOpt <;> simp only [applySlugStep, hS] <;> split_ifs <;> rfl

theorem applyParentStep_ok_name {st : List Menu} {id : Nat} {dto : UpdateMenuDto}
    {m m3 : Menu} (h : applyParentStep st id dto m = .ok m3) : m3.name = m.name := by
  rcases hP : dto.parentId with _ | (_ | p) <;> simp only [applyParentStep, hP] at h
  · simp only [Except.ok.injEq] at h
    rw [← h]
  · simp only [Except.ok.injEq] at h
    rw [← h]
  · by_cases hpi : p = id
    · simp [hpi] at h
    · rw [if_neg hpi] at h
      cases hf : st.find? (fun x => x.id == p) with
      | none =>
        simp only [hf] at h
        exact Except.noConfusion h
      | some np =>
        simp only [hf] at h
        by_cases hc : (findDescendants st id).contains np.id = true
        · rw [if_pos hc] at h
          exact Except.noConfusion h
        · rw [if_neg hc] at h
          simp only [Except.ok.injEq] at h
          rw [← h]

theorem applyNameStep_fst_name (dto : UpdateMenuDto) (m : Menu) (nm : String)
    (h : dto.name = some nm) : (applyNameStep dto m).1.name = trimJS nm := by
  simp [applyNameStep, h]

/-! ### Claim theorems -/

/-- Claim C1 (code_bug evidence): in the store `storeAB`, node `1` has the
child `2`, yet `remove 1` succeeds and deletes the node instead of failing
with the conflict error: the guard reads the unloaded `children` relation of
the entity returned by `findOne`, which is always `undefined`. -/
theorem remove_deletes_node_with_children :
  (storeAB.filter (fun m => m.parentId == some 1)).map (fun m => m.id) = [2] ∧
  remove storeAB 1 = .ok [menuB] :=
  ⟨rfl, rfl⟩

/-- Claim C7 (code_bug evidence): node `2` is a descendant of the root `1` in
`storeAB`, but `findTreeById 2` fails with NotFound — the id is looked up
only among the root nodes returned by `findTrees`. -/
theorem findTreeById_misses_descendant :
  (findTrees storeAB).map (fun m => m.id) = [1] ∧
  (findDescendants storeAB 1).contains 2 = true ∧
  findTreeById storeAB 2 = .error (.notFound ("Menu not found")) :=
  ⟨rfl, rfl, rfl⟩

/-- Claim C10: the `isActive` of a created node is `true` when the request supplies
none, and exactly the supplied value otherwise (`dto.isActive ?? true`). -/
theorem create_isActive_defaults_true
    (nfkc : String → String) (ln : Char → Bool) (rnd : String)
    (st : List Menu) (newId : Nat) (dto : CreateMenuDto) (st2 : List Menu) (m : Menu)
    (hok : create nfkc ln rnd st newId dto = .ok (st2, m)) :
    (dto.isActive = none → m.isActive = true) ∧
    (∀ b, dto.isActive = some b → m.isActive = b) := by
  simp only [create] at hok
  cases hres : resolveParent st dto.parentId with
  | error e => rw [hres] at hok; exact Except.noConfusion hok
  | ok parent =>
    rw [hres] at hok
    simp only [Except.ok.injEq, Prod.mk.injEq] at hok
    obtain ⟨-, hm⟩ := hok
    constructor
    · intro h; rw [← hm]; simp [h]
    · intro b h; rw [← hm]; simp [h]

/-- Witness for C10: creating `{ name: "B" }` on an empty store yields a row
with `isActive = true`. -/
theorem create_isActive_defaults_true_witness :
  create (fun s => s) (fun c => c.isAlpha) ("r") [] 1 dtoCreateB =
      .ok ([createdBFirst], createdBFirst) ∧
  createdBFirst.isActive = true :=
  ⟨rfl, (create_isActive_defaults_true (fun s => s) (fun c => c.isAlpha) ("r") [] 1
      dtoCreateB [createdBFirst] createdBFirst rfl).1 rfl⟩

/-- Claim C4: when the create request supplies no order, the assigned order is
`max + 1` over the sibling group of the new node (the group of rows with the
same `parentId`, parentless rows forming their own group), and `1` when that
group is empty. -/
theorem create_assigns_next_sibling_order
    (nfkc : String → String) (ln : Char → Bool) (rnd : String)
    (st : List Menu) (newId : Nat) (dto : CreateMenuDto) (st2 : List Menu) (m : Menu)
    (hord : dto.order = none)
    (hok : create nfkc ln rnd st newId dto = .ok (st2, m)) :
    ((siblingOrders st m.parentId).max? = none → m.order = 1) ∧
    (∀ M : Int, (siblingOrders st m.parentId).max? = some M → m.order = M + 1) := by
  simp only [create] at hok
  cases hres : resolveParent st dto.parentId with
  | error e => rw [hres] at hok; exact Except.noConfusion hok
  | ok parent =>
    rw [hres] at hok
    simp only [hord, Except.ok.injEq, Prod.mk.injEq] at hok
    obtain ⟨-, hm⟩ := hok
    have hparent : m.parentId = Option.map (fun q => q.id) parent := by rw [← hm]
    have horder : m.order = nextOrderOf st (parentKey parent) := by rw [← hm]
    have hpk : parentKey parent = Option.map (fun q => q.id) parent := by
      cases parent with
      | none => rfl
      | some q =>
        have hq0 : q.id ≠ 0 := resolveParent_ok_some hres
        simp [parentKey, hq0]
    have hordm : m.order = (siblingOrders st m.parentId).max?.getD 0 + 1 := by
      rw [horder, hparent, ← hpk]
      rfl
    constructor
    · intro hnone; simp [hordm, hnone]
    · intro M hM; simp [hordm, hM]

/-- Witness for C4: creating `{ name: "B" }` next to a root of order `5`
assigns order `6`. -/
theorem create_assigns_next_sibling_order_witness :
  create (fun s => s) (fun c => c.isAlpha) ("r") [rootOrderFive] 2 dtoCreateB =
      .ok ([rootOrderFive, createdB], createdB) ∧
  (siblingOrders [rootOrderFive] createdB.parentId).max? = some 5 ∧
  createdB.order = 6 :=
  ⟨rfl, rfl, by
    have h := (create_assigns_next_sibling_order (fun s => s) (fun c => c.isAlpha) ("r")
      [rootOrderFive] 2 dtoCreateB [rootOrderFive, createdB] createdB rfl rfl).2 5 rfl
    simpa using h⟩

end MenuTree

namespace MenuTree

/-- Claim C2: for an existing node and an update request that sets `parentId`
to `p`: self-parenting is rejected with the conflict error; a missing target
parent is rejected with NotFound; a target parent inside the descendant
set of the node (computed by `findDescendants` and tested for membership) is
rejected with the conflict error; otherwise the parent of the node is reassigned
to the target. -/
theorem update_reparent_guard
    (nfkc : String → String) (ln : Char → Bool) (rnd : String)
    (st : List Menu) (id p : Nat) (dto : UpdateMenuDto)
    (hex : (st.find? (fun x => x.id == id)).isSome = true)
    (hp : dto.parentId = some (some p)) :
    (p = id →
      update nfkc ln rnd st id dto = .error (.badRequest ("Cannot set parent to itself"))) ∧
    (p ≠ id → st.find? (fun x => x.id == p) = none →
      update nfkc ln rnd st id dto = .error (.notFound ("New parent not found"))) ∧
    (∀ np, p ≠ id → st.find? (fun x => x.id == p) = some np →
      (findDescendants st id).contains p = true →
      update nfkc ln rnd st id dto =
        .error (.badRequest ("Cannot move a node into its descendant"))) ∧
    (∀ np, p ≠ id → st.find? (fun x => x.id == p) = some np →
      (findDescendants st id).contains p = false →
      ∃ st2 m, update nfkc ln rnd st id dto = .ok (st2, m) ∧ m.parentId = some p) := by
  obtain ⟨menu0, hfind⟩ : ∃ m0, st.find? (fun x => x.id == id) = some m0 := by
    cases hf : st.find? (fun x => x.id == id) with
    | none => rw [hf] at hex; simp at hex
    | some m0 => exact ⟨m0, rfl⟩
  refine ⟨?_, ?_, ?_, ?_⟩
  · intro hpe
    have hstep : ∀ mm : Menu,
        applyParentStep st id dto mm = .error (.badRequest ("Cannot set parent to itself")) := by
      intro mm
      simp [applyParentStep, hp, hpe]
    simp only [update, hfind, hstep]
  · intro hne hnone
    have hstep : ∀ mm : Menu,
        applyParentStep st id dto mm = .error (.notFound ("New parent not found")) := by
      intro mm
      simp only [applyParentStep, hp]
      rw [if_neg hne]
      simp only [hnone]
    simp only [update, hfind, hstep]
  · intro np hne hnp hdesc
    have hid : np.id = p := by simpa using List.find?_some hnp
    have hstep : ∀ mm : Menu,
        applyParentStep st id dto mm =
          .error (.badRequest ("Cannot move a node into its descendant")) := by
      intro mm
      simp only [applyParentStep, hp]
      rw [if_neg hne]
      simp only [hnp]
      rw [if_pos (by rw [hid]; exact hdesc)]
    simp only [update, hfind, hstep]
  · intro np hne hnp hdesc
    have hid : np.id = p := by simpa using List.find?_some hnp
    have hstep : ∀ mm : Menu,
        applyParentStep st id dto mm = .ok { mm with parentId := some p } := by
      intro mm
      simp only [applyParentStep, hp]
      rw [if_neg hne]
      simp only [hnp]
      rw [if_neg (by rw [hid, hdesc]; exact Bool.false_ne_true), hid]
    refine ⟨saveRow st id (applyOrderActiveStep dto
        { applySlugStep nfkc ln rnd st dto (applyNameStep dto menu0).2 (applyNameStep dto menu0).1
            with parentId := some p }),
      applyOrderActiveStep dto
        { applySlugStep nfkc ln rnd st dto (applyNameStep dto menu0).2 (applyNameStep dto menu0).1
            with parentId := some p }, ?_, ?_⟩
    · simp only [update, hfind, hstep]
    · simp [applyOrderActive_parentId]

/-- Witness for C2 (the example `A → B → C` from the spec): moving `C` under `A`
succeeds and reassigns the parent of `C` to `A`. -/
theorem update_reparent_guard_witness :
  (storeABC.find? (fun x => x.id == 3)).isSome = true ∧
  (∃ st2 m, update (fun s => s) (fun c => c.isAlpha) ("r") storeABC 3 dtoCtoA = .ok (st2, m) ∧
    m.parentId = some 1) :=
  ⟨rfl,
    (update_reparent_guard (fun s => s) (fun c => c.isAlpha) ("r") storeABC 3 1 dtoCtoA
      rfl rfl).2.2.2 menuA (by decide) rfl rfl⟩

/-- Claim C8 counterexample: updating the node named `"A"` with the name
`"   "` (which trims to the empty string) stores the empty name instead of
leaving the current name unchanged — the trimmed value is assigned
unconditionally. -/
theorem update_blank_name_overwrites :
  menuA.name = ("A") ∧ trimJS ("   ") = ("") ∧
  update (fun s => s) (fun c => c.isAlpha) ("r") [menuA] 1 dtoBlankName =
    .ok ([{ menuA with name := ("") }], { menuA with name := ("") }) :=
  ⟨rfl, rfl, rfl⟩

/-- Claim C8 as amended: when an update request supplies a name, the trimmed
value is always stored — in particular a name that trims to the empty string
overwrites the current name with the empty string; the non-empty-and-different
test only decides whether an automatic re-slug happens. -/
theorem update_name_trim_always_applied
    (nfkc : String → String) (ln : Char → Bool) (rnd : String)
    (st : List Menu) (id : Nat) (dto : UpdateMenuDto) (nm : String)
    (st2 : List Menu) (m : Menu)
    (hnm : dto.name = some nm)
    (hok : update nfkc ln rnd st id dto = .ok (st2, m)) :
    m.name = trimJS nm := by
  cases hf : st.find? (fun x => x.id == id) with
  | none =>
    simp only [update, hf] at hok
    exact Except.noConfusion hok
  | some menu0 =>
    simp only [update, hf] at hok
    cases h3 : applyParentStep st id dto
        (applySlugStep nfkc ln rnd st dto (applyNameStep dto menu0).2 (applyNameStep dto menu0).1)
      with
    | error e =>
      rw [h3] at hok
      exact Except.noConfusion hok
    | ok m3 =>
      rw [h3] at hok
      simp only [Except.ok.injEq, Prod.mk.injEq] at hok
      obtain ⟨-, hm⟩ := hok
      rw [← hm, applyOrderActive_name, applyParentStep_ok_name h3, applySlugStep_name,
        applyNameStep_fst_name dto menu0 nm hnm]

/-- Witness for the amended C8: the blank-name update applies the empty
trimmed name. -/
theorem update_name_trim_always_applied_witness :
  dtoBlankName.name = some ("   ") ∧
  ({ menuA with name := ("") } : Menu).name = trimJS ("   ") :=
  ⟨rfl,
    update_name_trim_always_applied (fun s => s) (fun c => c.isAlpha) ("r") [menuA] 1
      dtoBlankName ("   ") [{ menuA with name := ("") }] { menuA with name := ("") } rfl rfl⟩

end MenuTree

namespace MenuTree

/-! ### Decimal representation: `Nat.repr` is injective

`slugCand base i` appends the decimal representation of `i` to `base ++ "-"`,
so distinct probe indices give distinct candidates. -/

theorem toDigitsCore_append (b : Nat) :
    ∀ (f n : Nat) (ds : List Char),
      Nat.toDigitsCore b f n ds = Nat.toDigitsCore b f n [] ++ ds := by
  intro f
  induction f with
  | zero => intro n ds; rfl
  | succ f ih =>
    intro n ds
    simp only [Nat.toDigitsCore]
    by_cases h : n / b = 0
    · simp [h]
    · rw [if_neg h, if_neg h]
      rw [ih (n / b) (Nat.digitChar (n % b) :: ds), ih (n / b) [Nat.digitChar (n % b)]]
      rw [List.append_assoc]
      rfl

theorem toDigitsCore_fuel (b : Nat) (hb : 2 ≤ b) :
    ∀ n f g (ds : List Char), n < f → n < g →
      Nat.toDigitsCore b f n ds = Nat.toDigitsCore b g n ds := by
  intro n
  induction n using Nat.strong_induction_on with
  | _ n ih =>
    intro f g ds hf hg
    cases f with
    | zero => omega
    | succ f =>
      cases g with
      | zero => omega
      | succ g =>
        simp only [Nat.toDigitsCore]
        by_cases h : n / b = 0
        · simp [h]
        · rw [if_neg h, if_neg h]
          have hb0 : 0 < n := by
            rcases Nat.eq_zero_or_pos n with h0 | h0
            · subst h0; simp at h
            · exact h0
          have hdiv : n / b < n := Nat.div_lt_self hb0 (by omega)
          exact ih (n / b) hdiv f g _ (by omega) (by omega)

theorem toDigits_ten_single {n : Nat} (h : n < 10) :
    Nat.toDigits 10 n = [Nat.digitChar n] := by
  unfold Nat.toDigits
  simp only [Nat.toDigitsCore]
  rw [if_pos (Nat.div_eq_of_lt h), Nat.mod_eq_of_lt h]

theorem toDigits_ten_step {n : Nat} (h : 10 ≤ n) :
    Nat.toDigits 10 n = Nat.toDigits 10 (n / 10) ++ [Nat.digitChar (n % 10)] := by
  unfold Nat.toDigits
  simp only [Nat.toDigitsCore]
  have h0 : ¬(n / 10 = 0) := by
    have h1 : 1 ≤ n / 10 := (Nat.le_div_iff_mul_le (by omega)).2 (by omega)
    omega
  rw [if_neg h0]
  rw [toDigitsCore_append 10 n (n / 10) [Nat.digitChar (n % 10)]]
  congr 1
  exact toDigitsCore_fuel 10 (by omega) (n / 10) n ((n / 10) + 1) []
    (by have := Nat.div_lt_self (by omega : 0 < n) (by omega : 1 < 10); omega)
    (by omega)

theorem toDigits_ten_ne_nil (n : Nat) : Nat.toDigits 10 n ≠ [] := by
  by_cases h : n < 10
  · rw [toDigits_ten_single h]
    simp
  · rw [toDigits_ten_step (by omega)]
    simp

theorem digitChar_inj_lt {m n : Nat} (hm : m < 10) (hn : n < 10)
    (h : Nat.digitChar m = Nat.digitChar n) : m = n := by
  have hgen : ∀ a, a < 10 → ∀ b, b < 10 → Nat.digitChar a = Nat.digitChar b → a = b := by decide
  exact hgen m hm n hn h

theorem toDigits_ten_inj : ∀ m n : Nat, Nat.toDigits 10 m = Nat.toDigits 10 n → m = n := by
  intro m
  induction m using Nat.strong_induction_on with
  | _ m ih =>
    intro n h
    by_cases hm : m < 10 <;> by_cases hn : n < 10
    · rw [toDigits_ten_single hm, toDigits_ten_single hn] at h
      exact digitChar_inj_lt hm hn (by simpa using h)
    · exfalso
      rw [toDigits_ten_single hm, toDigits_ten_step (by omega)] at h
      have hlen := congrArg List.length h
      simp only [List.length_append, List.length_cons, List.length_nil] at hlen
      have hnil : (Nat.toDigits 10 (n / 10)).length = 0 := by omega
      exact toDigits_ten_ne_nil (n / 10) (List.length_eq_zero.1 hnil)
    · exfalso
      rw [toDigits_ten_step (by omega), toDigits_ten_single hn] at h
      have hlen := congrArg List.length h
      simp only [List.length_append, List.length_cons, List.length_nil] at hlen
      have hnil : (Nat.toDigits 10 (m / 10)).length = 0 := by omega
      exact toDigits_ten_ne_nil (m / 10) (List.length_eq_zero.1 hnil)
    · rw [toDigits_ten_step (by omega : 10 ≤ m), toDigits_ten_step (by omega : 10 ≤ n)] at h
      rw [← List.concat_eq_append, ← List.concat_eq_append] at h
      obtain ⟨h1, h2⟩ := List.concat_inj.1 h
      have hdiv : m / 10 = n / 10 :=
        ih (m / 10) (Nat.div_lt_self (by omega) (by omega)) (n / 10) h1
      have hmod : m % 10 = n % 10 :=
        digitChar_inj_lt (Nat.mod_lt _ (by omega)) (Nat.mod_lt _ (by omega)) h2
      omega

theorem natRepr_inj {m n : Nat} (h : Nat.repr m = Nat.repr n) : m = n :=
  toDigits_ten_inj m n (congrArg String.data h)

theorem slugCand_inj {base : String} {i j : Nat} (h : slugCand base i = slugCand base j) :
    i = j := by
  have hd := congrArg String.data h
  simp only [slugCand, String.data_append] at hd
  exact natRepr_inj (String.ext (List.append_cancel_left hd))

/-! ### The probe loop returns the first free candidate -/

theorem probeSlug_spec (stored : List String) (base : String) :
    ∀ (fuel i : Nat),
      (∃ k, k ≤ fuel ∧ stored.contains (slugCand base (i + k)) = false) →
      ∃ m, i ≤ m ∧ probeSlug stored base fuel i = slugCand base m ∧
        stored.contains (slugCand base m) = false ∧
        ∀ j, i ≤ j → j < m → stored.contains (slugCand base j) = true := by
  intro fuel
  induction fuel with
  | zero =>
    rintro i ⟨k, hk, hfree⟩
    have hk0 : k = 0 := Nat.le_zero.1 hk
    subst hk0
    refine ⟨i, le_refl i, rfl, by simpa using hfree, ?_⟩
    intro j h1 h2
    omega
  | succ fuel ih =>
    rintro i ⟨k, hk, hfree⟩
    by_cases hc : stored.contains (slugCand base i) = true
    · have hk0 : k ≠ 0 := by
        intro h0
        subst h0
        simp only [Nat.add_zero] at hfree
        rw [hfree] at hc
        exact Bool.false_ne_true hc
      obtain ⟨m, hm1, hm2, hm3, hm4⟩ := ih (i + 1)
        ⟨k - 1, by omega, by
          have harr : i + 1 + (k - 1) = i + k := by omega
          rw [harr]
          exact hfree⟩
      refine ⟨m, by omega, ?_, hm3, ?_⟩
      · simp only [probeSlug]
        rw [if_pos hc]
        exact hm2
      · intro j hj1 hj2
        by_cases hji : j = i
        · rw [hji]
          exact hc
        · exact hm4 j (by omega) hj2
    · refine ⟨i, le_refl i, ?_, by simpa using hc, ?_⟩
      · simp only [probeSlug]
        rw [if_neg hc]
      · intro j h1 h2
        omega

/-- Claim C3: `ensureUniqueSlug` returns the base unchanged when it is not
among the stored slugs, and otherwise `base-m` for the smallest `m ≥ 2` such
that `base-m` is not stored; in particular, with stored slugs
`{"a", "a-2"}`, resolving `"a"` yields `"a-3"`. -/
theorem ensureUniqueSlug_resolves (stored : List String) (base : String) :
    (stored.contains base = false → ensureUniqueSlug stored base = base) ∧
    (stored.contains base = true →
      ∃ m, 2 ≤ m ∧ ensureUniqueSlug stored base = slugCand base m ∧
        stored.contains (slugCand base m) = false ∧
        ∀ j, 2 ≤ j → j < m → stored.contains (slugCand base j) = true) ∧
    ensureUniqueSlug [("a"), ("a-2")] ("a") = ("a-3") := by
  refine ⟨?_, ?_, ?_⟩
  · intro h
    unfold ensureUniqueSlug
    rw [if_neg (by rw [h]; exact Bool.false_ne_true)]
  · intro h
    have hex : ∃ k, k ≤ stored.length + 1 ∧
        stored.contains (slugCand base (2 + k)) = false := by
      have hex0 : ∃ k, k ≤ stored.length ∧
          stored.contains (slugCand base (2 + k)) = false := by
        by_contra hnone
        push_neg at hnone
        have hall : ∀ k, k ≤ stored.length →
            stored.contains (slugCand base (2 + k)) = true := by
          intro k hk
          have hne := hnone k hk
          simpa using hne
        have hsub : ((List.range (stored.length + 1)).map
            (fun k => slugCand base (2 + k))) ⊆ stored := by
          intro s hs
          simp only [List.mem_map, List.mem_range] at hs
          obtain ⟨k, hk, rfl⟩ := hs
          exact List.mem_of_elem_eq_true (hall k (by omega))
        have hnd : ((List.range (stored.length + 1)).map
            (fun k => slugCand base (2 + k))).Nodup := by
          refine List.Nodup.map ?_ (List.nodup_range _)
          intro a b hab
          have hinj := slugCand_inj hab
          omega
        have hlen := (List.Nodup.subperm hnd hsub).length_le
        simp only [List.length_map, List.length_range] at hlen
        omega
      obtain ⟨k, hk, hfree⟩ := hex0
      exact ⟨k, by omega, hfree⟩
    obtain ⟨m, hm1, hm2, hm3, hm4⟩ := probeSlug_spec stored base (stored.length + 1) 2 hex
    refine ⟨m, hm1, ?_, hm3, hm4⟩
    unfold ensureUniqueSlug
    rw [if_pos h]
    exact hm2
  · rfl

/-- Witness for C3: a base absent from storage is returned unchanged. -/
theorem ensureUniqueSlug_resolves_witness :
  ([("b")] : List String).contains ("a") = false ∧
  ensureUniqueSlug [("b")] ("a") = ("a") :=
  ⟨by decide, (ensureUniqueSlug_resolves [("b")] ("a")).1 (by decide)⟩

end MenuTree

namespace MenuTree

/-! ### List lemmas for the normalizer pipeline -/

theorem hd_dropWhile {α} {p : α → Bool} :
    ∀ (l : List α) (c : α), (l.dropWhile p).head? = some c → p c = false := by
  intro l
  induction l with
  | nil =>
    intro c h
    simp [List.dropWhile] at h
  | cons a as ih =>
    intro c h
    rw [List.dropWhile_cons] at h
    by_cases hp : p a = true
    · rw [if_pos hp] at h
      exact ih c h
    · rw [if_neg hp] at h
      simp only [List.head?_cons, Option.some.injEq] at h
      rw [← h]
      simpa using hp

theorem dropWhile_head_fix {α} {p : α → Bool} {l : List α}
    (h : ∀ c, l.head? = some c → p c = false) : l.dropWhile p = l := by
  cases l with
  | nil => rfl
  | cons a as =>
    rw [List.dropWhile_cons,
      if_neg (by rw [h a rfl]; exact Bool.false_ne_true)]

theorem dropWhile_all_neg {α} {p : α → Bool} :
    ∀ l : List α, (∀ c ∈ l, p c = false) → l.dropWhile p = l := by
  intro l h
  cases l with
  | nil => rfl
  | cons a as =>
    rw [List.dropWhile_cons,
      if_neg (by rw [h a (List.mem_cons_self a as)]; exact Bool.false_ne_true)]

theorem getLast?_dropWhile {α} (p : α → Bool) :
    ∀ l : List α, l.dropWhile p ≠ [] → (l.dropWhile p).getLast? = l.getLast? := by
  intro l
  induction l with
  | nil =>
    intro h
    exact absurd rfl h
  | cons a as ih =>
    intro h
    rw [List.dropWhile_cons] at h ⊢
    by_cases hp : p a = true
    · rw [if_pos hp] at h ⊢
      cases as with
      | nil => exact absurd rfl h
      | cons b bs =>
        rw [List.getLast?_cons_cons]
        exact ih h
    · rw [if_neg hp]

theorem chain'_dropWhile {α} {R : α → α → Prop} (p : α → Bool) :
    ∀ l : List α, List.Chain' R l → List.Chain' R (l.dropWhile p) := by
  intro l
  induction l with
  | nil =>
    intro h
    exact h
  | cons a as ih =>
    intro h
    rw [List.dropWhile_cons]
    by_cases hp : p a = true
    · rw [if_pos hp]
      exact ih (List.chain'_cons'.1 h).2
    · rw [if_neg hp]
      exact h

theorem chainHyph_reverse {l : List Char} (h : List.Chain' HyphApart l) :
    List.Chain' HyphApart l.reverse := by
  rw [List.chain'_reverse]
  exact h.imp (fun a b hab => fun hcon => hab ⟨hcon.2, hcon.1⟩)

theorem head?_collapseAux_true :
    ∀ (l : List Char) (c : Char), (collapseHyphAux true l).head? = some c → c ≠ '-' := by
  intro l
  induction l with
  | nil =>
    intro c h
    simp [collapseHyphAux] at h
  | cons a as ih =>
    intro c h
    simp only [collapseHyphAux] at h
    by_cases ha : (a == '-') = true
    · rw [if_pos ha, if_pos trivial] at h
      exact ih c h
    · rw [if_neg ha] at h
      simp only [List.head?_cons, Option.some.injEq] at h
      rw [← h]
      simpa using ha

theorem chainHyph_collapseAux :
    ∀ (l : List Char) (b : Bool), List.Chain' HyphApart (collapseHyphAux b l) := by
  intro l
  induction l with
  | nil =>
    intro b
    simp [collapseHyphAux]
  | cons a as ih =>
    intro b
    simp only [collapseHyphAux]
    by_cases ha : (a == '-') = true
    · rw [if_pos ha]
      by_cases hb : b = true
      · rw [if_pos hb]
        exact ih true
      · rw [if_neg hb]
        rw [List.chain'_cons']
        refine ⟨?_, ih true⟩
        intro y hy
        intro hcon
        exact head?_collapseAux_true as y (Option.mem_def.1 hy) hcon.2
    · rw [if_neg ha]
      rw [List.chain'_cons']
      refine ⟨?_, ih false⟩
      intro y hy
      intro hcon
      exact (by simpa using ha : a ≠ '-') hcon.1

theorem collapseAux_fix :
    ∀ (l : List Char) (b : Bool), List.Chain' HyphApart l →
      (b = true → l.head? ≠ some '-') → collapseHyphAux b l = l := by
  intro l
  induction l with
  | nil =>
    intro b _ _
    rfl
  | cons a as ih =>
    intro b hch hhd
    simp only [collapseHyphAux]
    by_cases ha : (a == '-') = true
    · have ha2 : a = '-' := by simpa using ha
      have hb : ¬(b = true) := by
        intro hb1
        exact hhd hb1 (by rw [List.head?_cons, ha2])
      rw [if_pos ha, if_neg hb, ha2]
      congr 1
      apply ih true (List.chain'_cons'.1 hch).2
      intro _ hassome
      have hap := (List.chain'_cons'.1 hch).1 '-' (Option.mem_def.2 hassome)
      exact hap ⟨ha2, rfl⟩
    · rw [if_neg ha]
      congr 1
      apply ih false (List.chain'_cons'.1 hch).2
      intro h0
      exact absurd h0 Bool.false_ne_true

theorem mem_collapseAux :
    ∀ (l : List Char) (b : Bool) (c : Char),
      c ∈ collapseHyphAux b l → c = '-' ∨ c ∈ l := by
  intro l
  induction l with
  | nil =>
    intro b c h
    simp [collapseHyphAux] at h
  | cons a as ih =>
    intro b c h
    simp only [collapseHyphAux] at h
    by_cases ha : (a == '-') = true
    · rw [if_pos ha] at h
      by_cases hb : b = true
      · rw [if_pos hb] at h
        rcases ih true c h with h1 | h1
        · exact Or.inl h1
        · exact Or.inr (List.mem_cons_of_mem a h1)
      · rw [if_neg hb] at h
        rcases List.mem_cons.1 h with h1 | h1
        · exact Or.inl h1
        · rcases ih true c h1 with h2 | h2
          · exact Or.inl h2
          · exact Or.inr (List.mem_cons_of_mem a h2)
    · rw [if_neg ha] at h
      rcases List.mem_cons.1 h with h1 | h1
      · exact Or.inr (h1 ▸ List.mem_cons_self a as)
      · rcases ih false c h1 with h2 | h2
        · exact Or.inl h2
        · exact Or.inr (List.mem_cons_of_mem a h2)

theorem hyphenateAux_no_ws :
    ∀ (l : List Char) (b : Bool),
      (∀ c ∈ l, jsWhitespace c = false) → hyphenateAux b l = l := by
  intro l
  induction l with
  | nil =>
    intro b _
    rfl
  | cons a as ih =>
    intro b hn
    simp only [hyphenateAux]
    rw [if_neg (by rw [hn a (List.mem_cons_self a as)]; exact Bool.false_ne_true)]
    congr 1
    exact ih false (fun c hc => hn c (List.mem_cons_of_mem a hc))

theorem mem_hyphenateAux :
    ∀ (l : List Char) (b : Bool) (c : Char),
      (∀ d ∈ l, d = '-' ∨ jsWhitespace d = true) → c ∈ hyphenateAux b l → c = '-' := by
  intro l
  induction l with
  | nil =>
    intro b c _ h
    simp [hyphenateAux] at h
  | cons a as ih =>
    intro b c hall h
    have hall2 : ∀ d ∈ as, d = '-' ∨ jsWhitespace d = true :=
      fun d hd => hall d (List.mem_cons_of_mem a hd)
    simp only [hyphenateAux] at h
    by_cases hw : jsWhitespace a = true
    · rw [if_pos hw] at h
      by_cases hb : b = true
      · rw [if_pos hb] at h
        exact ih true c hall2 h
      · rw [if_neg hb] at h
        rcases List.mem_cons.1 h with h1 | h1
        · exact h1
        · exact ih true c hall2 h1
    · rw [if_neg hw] at h
      rcases List.mem_cons.1 h with h1 | h1
      · rcases hall a (List.mem_cons_self a as) with h2 | h2
        · rw [h1, h2]
        · exact absurd h2 hw
      · exact ih false c hall2 h1

theorem mem_trimChars {l : List Char} {c : Char} (h : c ∈ trimChars l) : c ∈ l := by
  unfold trimChars dropLeadWs at h
  have h1 := List.Sublist.mem (List.mem_reverse.1 h) (List.dropWhile_sublist jsWhitespace)
  have h2 := List.Sublist.mem (List.mem_reverse.1 h1) (List.dropWhile_sublist jsWhitespace)
  exact h2

theorem mem_stripEdge {l : List Char} {c : Char} (h : c ∈ stripEdgeHyph l) : c ∈ l := by
  unfold stripEdgeHyph dropTrailHyph dropLeadHyph at h
  have h1 := List.Sublist.mem h (List.dropWhile_sublist (fun c => c == '-'))
  have h2 := List.Sublist.mem (List.mem_reverse.1 h1)
    (List.dropWhile_sublist (fun c => c == '-'))
  exact List.mem_reverse.1 h2

theorem trimChars_no_ws_fix {l : List Char} (h : ∀ c ∈ l, jsWhitespace c = false) :
    trimChars l = l := by
  unfold trimChars dropLeadWs
  rw [dropWhile_all_neg l h]
  rw [dropWhile_all_neg l.reverse (fun c hc => h c (List.mem_reverse.1 hc))]
  exact List.reverse_reverse l

theorem trimChars_eq_nil {l : List Char} (h : trimChars l = []) :
    ∀ c ∈ l, jsWhitespace c = true := by
  unfold trimChars dropLeadWs at h
  have h1 : (l.dropWhile jsWhitespace).reverse.dropWhile jsWhitespace = [] := by
    have h2 := congrArg List.reverse h
    simpa using h2
  have h3 : ∀ c ∈ (l.dropWhile jsWhitespace).reverse, jsWhitespace c = true :=
    List.dropWhile_eq_nil_iff.1 h1
  have h4 : ∀ c ∈ l.dropWhile jsWhitespace, jsWhitespace c = true :=
    fun c hc => h3 c (List.mem_reverse.2 hc)
  intro c hc
  rw [← List.takeWhile_append_dropWhile jsWhitespace l] at hc
  rcases List.mem_append.1 hc with h5 | h5
  · exact List.mem_takeWhile_imp h5
  · exact h4 c h5

theorem stripEdge_all_hyph {l : List Char} (h : ∀ c ∈ l, c = '-') :
    stripEdgeHyph l = [] := by
  unfold stripEdgeHyph dropTrailHyph dropLeadHyph
  have h1 : l.reverse.dropWhile (fun c => c == '-') = [] :=
    List.dropWhile_eq_nil_iff.2
      (fun c hc => by rw [h c (List.mem_reverse.1 hc)]; rfl)
  rw [h1]
  rfl

theorem stripEdge_fix {l : List Char}
    (hhd : ∀ c, l.head? = some c → c ≠ '-')
    (hlast : ∀ c, l.getLast? = some c → c ≠ '-') :
    stripEdgeHyph l = l := by
  unfold stripEdgeHyph dropTrailHyph dropLeadHyph
  have h1 : l.reverse.dropWhile (fun c => c == '-') = l.reverse := by
    apply dropWhile_head_fix
    intro c hc
    rw [List.head?_reverse] at hc
    exact beq_eq_false_iff_ne.2 (hlast c hc)
  rw [h1, List.reverse_reverse]
  apply dropWhile_head_fix
  intro c hc
  exact beq_eq_false_iff_ne.2 (hhd c hc)

theorem keepChar_hyph (ln : Char → Bool) : keepChar ln '-' = true := by
  simp [keepChar]

theorem keep_no_ws {ln : Char → Bool} (hln : ∀ c, ln c = true → jsWhitespace c = false)
    {c : Char} (hc : keepChar ln c = true) : jsWhitespace c = false := by
  simp only [keepChar, Bool.or_eq_true] at hc
  rcases hc with ((((h1 | h1) | h1) | h1) | h1)
  · exact hln c h1
  · rw [(by simpa using h1 : c = '-')]
    rfl
  · rw [(by simpa using h1 : c = '_')]
    rfl
  · rw [(by simpa using h1 : c = '.')]
    rfl
  · rw [(by simpa using h1 : c = '~')]
    rfl

end MenuTree

namespace MenuTree

theorem unicodeSlug_empty (nfkc : String → String) (ln : Char → Bool) :
    unicodeSlug nfkc ln ("") = ("") := by
  unfold unicodeSlug
  rw [if_pos rfl]

theorem unicodeSlug_ne_empty_eq (nfkc : String → String) (ln : Char → Bool)
    (s : String) (hs : s ≠ ("")) :
    unicodeSlug nfkc ln s =
      String.mk (stripEdgeHyph (collapseHyph
        ((hyphenateWs (trimChars (nfkc s).data)).filter (keepChar ln)))) := by
  unfold unicodeSlug
  rw [if_neg hs]

theorem isEmptyOrHyphens_chars {s : String} (h : isEmptyOrHyphens s = true) :
    ∀ c ∈ s.data, c = '-' ∨ jsWhitespace c = true := by
  unfold isEmptyOrHyphens at h
  rw [Bool.or_eq_true] at h
  rcases h with h1 | h1
  · have hs : s = ("") := by simpa using h1
    intro c hc
    rw [hs] at hc
    exact absurd hc (List.not_mem_nil c)
  · have hs : trimJS ⟨s.data.filter (fun c => c != '-')⟩ = ("") := by simpa using h1
    have hdata : trimChars (s.data.filter (fun c => c != '-')) = [] :=
      congrArg String.data hs
    have hws := trimChars_eq_nil hdata
    intro c hc
    by_cases hch : c = '-'
    · exact Or.inl hch
    · refine Or.inr (hws c ?_)
      exact List.mem_filter.2 ⟨hc, by simpa using hch⟩

theorem lnDemo_no_ws : ∀ c, lnDemo c = true → jsWhitespace c = false := by
  intro c h
  simp only [lnDemo, Bool.or_eq_true] at h
  rcases h with ((((((h1 | h1) | h1) | h1) | h1) | h1) | h1) <;>
    (rw [(by simpa using h1 : c = _)]; rfl)

/-- Claim C6: the slug normalizer returns exactly the result of the five-step
spec pipeline — NFKC-normalize and trim, replace whitespace runs by one hyphen,
remove every character outside letters, digits, `- _ . ~`, collapse hyphen
runs, strip edge hyphens (`unicodeSlugSpecSteps`) — and it maps every input
classified as empty-or-hyphens by the helper predicate to the empty string.
The two hypotheses state facts about real NFKC left abstract in the model:
it fixes the empty string and maps hyphen-and-whitespace strings to
hyphen-and-whitespace strings. -/
theorem unicodeSlug_spec_steps (nfkc : String → String) (ln : Char → Bool) (input : String)
    (h0 : nfkc ("") = (""))
    (hpres : ∀ s : String, (∀ c ∈ s.data, c = '-' ∨ jsWhitespace c = true) →
        ∀ c ∈ (nfkc s).data, c = '-' ∨ jsWhitespace c = true) :
    unicodeSlug nfkc ln input = unicodeSlugSpecSteps nfkc ln input ∧
    (isEmptyOrHyphens input = true → unicodeSlug nfkc ln input = ("")) := by
  constructor
  · by_cases hin : input = ("")
    · rw [hin, unicodeSlug_empty]
      unfold unicodeSlugSpecSteps
      rw [h0]
      rfl
    · rw [unicodeSlug_ne_empty_eq nfkc ln input hin]
      rfl
  · intro hEH
    by_cases hin : input = ("")
    · rw [hin, unicodeSlug_empty]
    · have hchars : ∀ c ∈ input.data, c = '-' ∨ jsWhitespace c = true :=
        isEmptyOrHyphens_chars hEH
      have hnf : ∀ c ∈ (nfkc input).data, c = '-' ∨ jsWhitespace c = true :=
        hpres input hchars
      rw [unicodeSlug_ne_empty_eq nfkc ln input hin]
      have htrim : ∀ e ∈ trimChars (nfkc input).data, e = '-' ∨ jsWhitespace e = true :=
        fun e he => hnf e (mem_trimChars he)
      have hhyph : ∀ e ∈ hyphenateWs (trimChars (nfkc input).data), e = '-' :=
        fun e he => mem_hyphenateAux (trimChars (nfkc input).data) false e htrim he
      have hfilt : ∀ e ∈ (hyphenateWs (trimChars (nfkc input).data)).filter (keepChar ln),
          e = '-' :=
        fun e he => hhyph e (List.mem_filter.1 he).1
      have hcoll : ∀ e ∈ collapseHyph
          ((hyphenateWs (trimChars (nfkc input).data)).filter (keepChar ln)), e = '-' := by
        intro e he
        rcases mem_collapseAux _ false e he with h1 | h1
        · exact h1
        · exact hfilt e h1
      rw [stripEdge_all_hyph hcoll]

/-- Witness for C6: with the identity as NFKC, `"  Hello   World!! "`
normalizes identically through the code and the spec pipeline, and the
hyphen-and-space string `" - - "` (classified by the helper) maps to `""`. -/
theorem unicodeSlug_spec_steps_witness :
  isEmptyOrHyphens (" - - ") = true ∧
  unicodeSlug (fun s => s) Char.isAlpha (" - - ") = ("") ∧
  unicodeSlug (fun s => s) Char.isAlpha ("  Hello   World!! ") =
    unicodeSlugSpecSteps (fun s => s) Char.isAlpha ("  Hello   World!! ") :=
  ⟨rfl,
    (unicodeSlug_spec_steps (fun s => s) Char.isAlpha (" - - ") rfl (fun _ h => h)).2 rfl,
    (unicodeSlug_spec_steps (fun s => s) Char.isAlpha ("  Hello   World!! ") rfl
      (fun _ h => h)).1⟩

/-- Claim C9 as amended: the slug normalizer is idempotent on every input
whose normalized output is fixed by NFKC (hypothesis `hfix`) — the scope the
spec itself gives with its already-normalized caveat — assuming also that
the letter-and-digit class contains no whitespace (`hln`, true of Unicode).
On inputs where NFKC does not fix the output the property fails
(see the Hangul-jamo counterexample), so the universal form of the claim is
corrected to this scope. -/
theorem unicodeSlug_idempotent (nfkc : String → String) (ln : Char → Bool) (x : String)
    (hfix : nfkc (unicodeSlug nfkc ln x) = unicodeSlug nfkc ln x)
    (hln : ∀ c, ln c = true → jsWhitespace c = false) :
    unicodeSlug nfkc ln (unicodeSlug nfkc ln x) = unicodeSlug nfkc ln x := by
  by_cases hy : unicodeSlug nfkc ln x = ("")
  · rw [hy]
    exact unicodeSlug_empty nfkc ln
  · have hx : x ≠ ("") := by
      intro h0
      apply hy
      rw [h0]
      exact unicodeSlug_empty nfkc ln
    have hydata : (unicodeSlug nfkc ln x).data =
        stripEdgeHyph (collapseHyph
          ((hyphenateWs (trimChars (nfkc x).data)).filter (keepChar ln))) :=
      congrArg String.data (unicodeSlug_ne_empty_eq nfkc ln x hx)
    have hkeep : ∀ c ∈ (unicodeSlug nfkc ln x).data, keepChar ln c = true := by
      rw [hydata]
      intro c hc
      rcases mem_collapseAux _ false c (mem_stripEdge hc) with h1 | h1
      · rw [h1]
        exact keepChar_hyph ln
      · exact (List.mem_filter.1 h1).2
    have hnws : ∀ c ∈ (unicodeSlug nfkc ln x).data, jsWhitespace c = false :=
      fun c hc => keep_no_ws hln (hkeep c hc)
    have hchain : List.Chain' HyphApart (unicodeSlug nfkc ln x).data := by
      rw [hydata]
      unfold stripEdgeHyph dropTrailHyph dropLeadHyph
      apply chain'_dropWhile
      apply chainHyph_reverse
      apply chain'_dropWhile
      apply chainHyph_reverse
      exact chainHyph_collapseAux _ false
    have hdnil : (unicodeSlug nfkc ln x).data ≠ [] := by
      intro h0
      apply hy
      have h2 : unicodeSlug nfkc ln x = String.mk (unicodeSlug nfkc ln x).data := rfl
      rw [h2, h0]
    have hhd : ∀ c, (unicodeSlug nfkc ln x).data.head? = some c → c ≠ '-' := by
      intro c hc
      rw [hydata] at hc
      unfold stripEdgeHyph dropLeadHyph at hc
      exact beq_eq_false_iff_ne.1 (hd_dropWhile _ c hc)
    have hlast : ∀ c, (unicodeSlug nfkc ln x).data.getLast? = some c → c ≠ '-' := by
      intro c hc
      rw [hydata] at hc
      unfold stripEdgeHyph dropLeadHyph at hc
      have hne : (dropTrailHyph (collapseHyph
          ((hyphenateWs (trimChars (nfkc x).data)).filter (keepChar ln)))).dropWhile
            (fun d => d == '-') ≠ [] := by
        intro h0
        apply hdnil
        rw [hydata]
        unfold stripEdgeHyph dropLeadHyph
        exact h0
      rw [getLast?_dropWhile _ _ hne] at hc
      unfold dropTrailHyph at hc
      rw [List.getLast?_reverse] at hc
      unfold dropLeadHyph at hc
      exact beq_eq_false_iff_ne.1 (hd_dropWhile _ c hc)
    rw [unicodeSlug_ne_empty_eq nfkc ln _ hy, hfix]
    rw [trimChars_no_ws_fix hnws]
    rw [show hyphenateWs (unicodeSlug nfkc ln x).data = (unicodeSlug nfkc ln x).data from
      hyphenateAux_no_ws _ false hnws]
    rw [List.filter_eq_self.2 hkeep]
    rw [show collapseHyph (unicodeSlug nfkc ln x).data = (unicodeSlug nfkc ln x).data from
      collapseAux_fix _ false hchain (fun h => absurd h Bool.false_ne_true)]
    rw [stripEdge_fix hhd hlast]

/-- Witness for C9: with the identity as NFKC and a concrete letter class,
normalizing `"  Hello   World!! "` twice equals normalizing it once. -/
theorem unicodeSlug_idempotent_witness :
  (fun s => s) (unicodeSlug (fun s => s) lnDemo ("  Hello   World!! ")) =
    unicodeSlug (fun s => s) lnDemo ("  Hello   World!! ") ∧
  unicodeSlug (fun s => s) lnDemo
      (unicodeSlug (fun s => s) lnDemo ("  Hello   World!! ")) =
    unicodeSlug (fun s => s) lnDemo ("  Hello   World!! ") :=
  ⟨rfl,
    unicodeSlug_idempotent (fun s => s) lnDemo ("  Hello   World!! ") rfl lnDemo_no_ws⟩

end MenuTree

namespace MenuTree

/-- Claim C9 counterexample: at the input U+1100, exclamation mark, U+1161,
with the model parameters instantiated to agree with real NFKC and the real
letter class on the strings involved (`nfkcJamo`, `lnJamo`), the normalizer
is not idempotent: the first pass filters the separator out, leaving the two
conjoining jamo adjacent, and the NFKC of the second pass composes them into
the precomposed syllable U+AC00, so normalizing twice differs from
normalizing once. -/
theorem unicodeSlug_not_idempotent_jamo :
  unicodeSlug nfkcJamo lnJamo ("\u1100!\u1161") = ("\u1100\u1161") ∧
  unicodeSlug nfkcJamo lnJamo (unicodeSlug nfkcJamo lnJamo ("\u1100!\u1161")) = ("\uAC00") ∧
  unicodeSlug nfkcJamo lnJamo (unicodeSlug nfkcJamo lnJamo ("\u1100!\u1161")) ≠
    unicodeSlug nfkcJamo lnJamo ("\u1100!\u1161") :=
  ⟨rfl, rfl, by decide⟩

end MenuTree
